import Mathlib

/-!
Verification development for the `ruzzle` repository (single source file
`ruzzle.py`): a Boggle/Ruzzle board solver.  The Python program is shallowly
embedded below.  Conventions used throughout:

* Python `(row, col)` tuples of machine integers become `Int × Int`.
* Python strings that hold words become `List Char` (`Word` below); the
  per-tile `colour` codes, which are one of `'' 'Y' 'G' 'B' 'R'`, stay `String`.
* Python `assert` failures and `KeyError`s become explicit `Except` errors
  (`RuzzleError.assertionFailed` and `RuzzleError.keyError`).  Exceptions in
  the source abort the whole computation (nothing catches them), so an
  all-or-nothing `Except` result is observationally faithful for
  `possible_words`.
* The recursive generator `Board._explore` carries a structural fuel
  parameter so that it is executable by the kernel; the source recursion is
  unbounded, and the development proves that fuel `gridSize² + 1` is never
  exhausted, which is exactly the spec's recursion-depth bound.
* `vars.py` (the `CHAR_POINTS` / `CHAR_COLOURS` tables) is not part of the
  repository sources.  Modelled from the spec: the recognised letters are
  `{a..z}`, the recognised colour codes `{"", "Y", "G", "B", "R"}`; the
  per-letter base values are kept abstract (each `Tile` stores the value the
  constructor looked up, mirroring `self._char_score`).
* Python 2 `set` / `dict` iteration order is implementation defined.  The
  eight neighbour candidates are pairwise distinct, so the neighbour set is
  modelled as the list of candidates in the textual order of the source; the
  `words` dict of `possible_words` is modelled as an insertion-ordered
  association list whose updates keep the position of an existing key.
* `list.sort(key=..., reverse=True)` is a stable descending sort; any stable
  sort computes the same list, so it is modelled by a stable insertion sort.
-/

namespace Ruzzle

/-- Grid coordinates, Python `(row, col)` tuples of integers. -/
abbrev Pos := Int × Int

/-- A word is the list of its characters (Python unicode string). -/
abbrev Word := List Char

/-- The ways the Python source can fail at runtime:
`invalidChar` / `invalidColour` are the two `assert`s of `Tile.__init__`
(spec: `ConfigurationError`); `assertionFailed` is a failing bounds `assert`
in `Board.tile` (spec: `OutOfBounds`); `keyError` is a Python `KeyError`
raised by `self.grid[position]`; `depthExceeded` marks fuel exhaustion of the
embedded recursion and is proved unreachable. -/
inductive RuzzleError where
  | invalidChar
  | invalidColour
  | assertionFailed
  | keyError
  | depthExceeded
deriving DecidableEq, Repr

/-- Modelled from the spec: `CHAR_COLOURS` of the missing `vars.py`; §6 of the
spec fixes the bonus codes to `{"", "Y", "G", "B", "R"}`. -/
def CHAR_COLOURS : List String := ["", "Y", "G", "B", "R"]

/-- Modelled from the spec: the key set of `CHAR_POINTS` of the missing
`vars.py`; §6 fixes the recognised letters to `{a..z}`. -/
def recognisedLetter (c : Char) : Bool := 'a' ≤ c.toLower && c.toLower ≤ 'z'

/-- A grid cell: `char` (lowercased letter), the base value the constructor
looked up in `CHAR_POINTS` (`self._char_score`), the bonus `colour`, and the
`position` assigned by the owning `Board` (`None` before that). -/
structure Tile where
  char : Char
  charScore : Nat
  colour : String
  position : Option Pos
deriving DecidableEq, Repr

/-- `Tile.__init__`: `assert char.lower() in CHAR_POINTS`, `assert colour in
CHAR_COLOURS`, then store the lowercased char and its base value.
`charPoints` stands for the `CHAR_POINTS` table of the missing `vars.py`. -/
def mkTile (charPoints : Char → Nat) (char : Char) (colour : String := "") :
    Except RuzzleError Tile :=
  if ¬ recognisedLetter char then .error .invalidChar
  else if ¬ CHAR_COLOURS.contains colour then .error .invalidColour
  else .ok ⟨char.toLower, charPoints char.toLower, colour, none⟩

/-- `Tile.points`: letter bonus `'G'` doubles, `'B'` triples the base value. -/
def Tile.points (t : Tile) : Nat :=
  if t.colour = "G" then t.charScore * 2
  else if t.colour = "B" then t.charScore * 3
  else t.charScore

/-- `Tile.is_double_word`: colour `'Y'`. -/
def Tile.isDoubleWord (t : Tile) : Bool := t.colour = "Y"

/-- `Tile.is_triple_word`: colour `'R'`. -/
def Tile.isTripleWord (t : Tile) : Bool := t.colour = "R"

/-- The body of `Tile.neighbours` as a function of the tile's position: the
eight guarded insertions, in source order.  The eight candidates are pairwise
distinct, so the Python `set` holds exactly these elements; its
implementation-defined iteration order is modelled by this textual order.
Note the hard-coded bounds `>= 1` / `<= 2`: the source clips to a 4×4 grid
whatever `grid_size` the board was built with. -/
def neighboursAt (p : Pos) : List Pos :=
  (if 1 ≤ p.1 then [(p.1 - 1, p.2)] else []) ++
  (if p.1 ≤ 2 then [(p.1 + 1, p.2)] else []) ++
  (if 1 ≤ p.2 then [(p.1, p.2 - 1)] else []) ++
  (if p.2 ≤ 2 then [(p.1, p.2 + 1)] else []) ++
  (if 1 ≤ p.1 ∧ 1 ≤ p.2 then [(p.1 - 1, p.2 - 1)] else []) ++
  (if 1 ≤ p.1 ∧ p.2 ≤ 2 then [(p.1 - 1, p.2 + 1)] else []) ++
  (if p.1 ≤ 2 ∧ 1 ≤ p.2 then [(p.1 + 1, p.2 - 1)] else []) ++
  (if p.1 ≤ 2 ∧ p.2 ≤ 2 then [(p.1 + 1, p.2 + 1)] else [])

/-- `Tile.neighbours`; board tiles always carry their position (set by
`Board.__init__`), the `none` branch is unreachable there. -/
def Tile.neighbourSet (t : Tile) : List Pos :=
  match t.position with
  | some p => neighboursAt p
  | none => []

/-- The vocabulary trie, reduced to the word list it stores. -/
structure Vocabulary where
  words : List Word
deriving DecidableEq

/-- `word_form in self.vocabulary.words`: exact trie membership. -/
def Vocabulary.containsWord (v : Vocabulary) (w : Word) : Bool :=
  decide (w ∈ v.words)

/-- Truthiness of `self.vocabulary.words.keys(word_form)`: the datrie call
returns every stored word starting with the queried string (including the
string itself), so the test is "some word has this prefix". -/
def Vocabulary.keysStarting (v : Vocabulary) (w : Word) : Bool :=
  v.words.any (fun k => w.isPrefixOf k)

/-- `Board`: the configured `GRID_SIZE` and the `grid` dict.  The dict keys
produced by `Board.__init__` are pairwise distinct, so an association list in
insertion order is a faithful model. -/
structure Board where
  gridSize : Nat
  grid : List (Pos × Tile)
deriving DecidableEq

/-- The `for pos, tile in enumerate(tiles)` loop of `Board.__init__`:
`row, col = pos / GRID_SIZE, pos % GRID_SIZE` (Python 2 integer division),
the tile's position is overwritten with the key.  Caveat: Lean's `Nat`
division is total (`i / 0 = 0`, `i % 0 = i`) while the source raises
`ZeroDivisionError` when `grid_size = 0` and the tile list is non-empty, so
statements about board construction carry a `0 < g` hypothesis. -/
def assignTiles (g : Nat) : Nat → List Tile → List (Pos × Tile)
  | _, [] => []
  | i, t :: ts =>
      (((i / g : Nat), (i % g : Nat)),
        { t with position := some ((i / g : Nat), (i % g : Nat)) })
        :: assignTiles g (i + 1) ts

/-- `Board.__init__` (tiles list and `grid_size`, default 4). -/
def Board.ofTiles (tiles : List Tile) (g : Nat := 4) : Board :=
  ⟨g, assignTiles g 0 tiles⟩

/-- Lookup in the grid dict (`self.grid[position]` without the asserts). -/
def Board.find (b : Board) (p : Pos) : Option Tile :=
  (b.grid.find? (fun e => decide (e.1 = p))).map (·.2)

/-- `Board.tile`: `assert position[0] < GRID_SIZE`, `assert position[1] <
GRID_SIZE`, then `self.grid[position]`.  Only the upper bounds are asserted;
a position missing from the dict (e.g. a negative coordinate) raises
`KeyError` instead. -/
def Board.tile (b : Board) (p : Pos) : Except RuzzleError Tile :=
  if p.1 < (b.gridSize : Int) then
    if p.2 < (b.gridSize : Int) then
      match b.find p with
      | some t => .ok t
      | none => .error .keyError
    else .error .assertionFailed
  else .error .assertionFailed

/-- The list comprehension `[self.tile(pos) ... for pos in path]`: look every
position up in order, the first failure raising. -/
def Board.tilesOf (b : Board) : List Pos → Except RuzzleError (List Tile)
  | [] => .ok []
  | p :: rest =>
      match b.tile p with
      | .error e => .error e
      | .ok t =>
          match b.tilesOf rest with
          | .error e => .error e
          | .ok ts => .ok (t :: ts)

/-- `Board.points`: sum of the per-tile `points` along the path, multiplied
by `2 ** n_double_w` and `3 ** n_triple_w`. -/
def Board.points (b : Board) (path : List Pos) : Except RuzzleError Nat :=
  match b.tilesOf path with
  | .error e => .error e
  | .ok ts =>
      .ok ((ts.map Tile.points).sum
        * 2 ^ (ts.filter Tile.isDoubleWord).length
        * 3 ^ (ts.filter Tile.isTripleWord).length)

/-- `Board.path2word`: join the chars of the tiles along the path. -/
def Board.path2word (b : Board) (path : List Pos) : Except RuzzleError Word :=
  match b.tilesOf path with
  | .error e => .error e
  | .ok ts => .ok (ts.map Tile.char)

/-- The `for pos in explorable_neighbours` loop of `Board._explore`.
`recurse` is the recursive call at the next depth (`self._explore(self.tile(pos),
path)`).  Per iteration, in source order: positions already in the path were
removed by the set difference (modelled by the skip), then the pruning test
`if self.vocabulary.words.keys(word_form)` on the branch's CURRENT word, then
`self.tile(pos)` is evaluated (raising on a missing key) and the recursion's
yields are passed through. -/
def exploreNbrs (b : Board) (voc : Vocabulary)
    (recurse : Pos → List Pos → Except RuzzleError (List (List Pos)))
    (w : Word) (path' : List Pos) :
    List Pos → Except RuzzleError (List (List Pos))
  | [] => .ok []
  | n :: rest =>
      if n ∈ path' then exploreNbrs b voc recurse w path' rest
      else if voc.keysStarting w then
        match b.tile n with
        | .error e => .error e
        | .ok _t =>
            match recurse n path' with
            | .error e => .error e
            | .ok rs1 =>
                match exploreNbrs b voc recurse w path' rest with
                | .error e => .error e
                | .ok rs2 => .ok (rs1 ++ rs2)
      else exploreNbrs b voc recurse w path' rest

/-- `Board._explore`, with a structural fuel making the recursion depth
explicit (the source recursion is unbounded; fuel `gridSize² + 1` is proved
sufficient).  Body, in source order: append the tile's position to the path,
form the current word, loop over the unvisited neighbours (recursing one
level deeper), and finally yield the path itself when the current word is in
the vocabulary. -/
def Board.explore (b : Board) (voc : Vocabulary) :
    Nat → Pos → List Pos → Except RuzzleError (List (List Pos))
  | 0, _, _ => .error .depthExceeded
  | fuel + 1, pos, path =>
      let path' := path ++ [pos]
      match b.path2word path' with
      | .error e => .error e
      | .ok w =>
          match exploreNbrs b voc (b.explore voc fuel) w path' (neighboursAt pos) with
          | .error e => .error e
          | .ok rs => .ok (rs ++ if voc.containsWord w then [path'] else [])

/-- Whether, at a branch whose path ends in `pos`, the loop of
`Board._explore` reaches the recursive call `self._explore(self.tile(n),
path)` for neighbour `n`: `n` survives the set difference, the pruning test
on the current word passes, and the tile lookup succeeds. -/
def Board.entersNeighbour (b : Board) (voc : Vocabulary)
    (pos : Pos) (path : List Pos) (n : Pos) : Bool :=
  match b.path2word (path ++ [pos]) with
  | .error _ => false
  | .ok w =>
      decide (n ∈ neighboursAt pos) && ! decide (n ∈ path ++ [pos])
        && voc.keysStarting w && (b.tile n).isOk

/-- One dict entry of `possible_words`: word, path, points. -/
abbrev Entry := Word × List Pos × Nat

/-- `words[wrd_form] = (wrd_path, wrd_points)`: replace the value of an
existing key in place, else append the new binding. -/
def updateWord (m : List Entry) (k : Word) (v : List Pos × Nat) : List Entry :=
  match m with
  | [] => [(k, v)]
  | (k', v') :: rest =>
      if k' = k then (k, v) :: rest else (k', v') :: updateWord rest k v

/-- The inner `for wrd_path in self._explore(...)` loop of `possible_words`:
compute `path2word` and `points` of each yielded path and store them. -/
def recordPaths (b : Board) (m : List Entry) :
    List (List Pos) → Except RuzzleError (List Entry)
  | [] => .ok m
  | p :: rest =>
      match b.path2word p with
      | .error e => .error e
      | .ok w =>
          match b.points p with
          | .error e => .error e
          | .ok pts => recordPaths b (updateWord m w (p, pts)) rest

/-- The doubly nested `for row ... for col ...` loop of `possible_words`:
`self.tile((row, col))` is evaluated first, then its exploration's yields are
recorded.  The fuel handed to the embedded recursion is `grid.length + 1`,
proved never to be exhausted. -/
def cellsLoop (b : Board) (voc : Vocabulary) (m : List Entry) :
    List Pos → Except RuzzleError (List Entry)
  | [] => .ok m
  | c :: rest =>
      match b.tile c with
      | .error e => .error e
      | .ok _t =>
          match b.explore voc (b.grid.length + 1) c [] with
          | .error e => .error e
          | .ok paths =>
              match recordPaths b m paths with
              | .error e => .error e
              | .ok m' => cellsLoop b voc m' rest

/-- `for row in xrange(GRID_SIZE): for col in xrange(GRID_SIZE)`. -/
def rowMajor (g : Nat) : List Pos :=
  (List.range g).flatMap (fun r => (List.range g).map (fun c => ((r : Int), (c : Int))))

/-- Insert an entry into a list already sorted by descending points, after
every entry of greater-or-equal points (so equal points keep their original
relative order). -/
def insertByPoints (x : Entry) : List Entry → List Entry
  | [] => [x]
  | y :: ys => if y.2.2 < x.2.2 then x :: y :: ys else y :: insertByPoints x ys

/-- `words.sort(key=lambda x: x[1][1], reverse=True)`: a stable sort by
descending points.  Python's sort is stable and any two stable sorts under
the same (total, transitive) key comparison agree, so a stable insertion
sort is a faithful model. -/
def sortByPoints (l : List Entry) : List Entry :=
  l.foldl (fun acc x => insertByPoints x acc) []

/-- `Board.possible_words`. -/
def Board.possible_words (b : Board) (voc : Vocabulary) :
    Except RuzzleError (List Entry) :=
  match cellsLoop b voc [] (rowMajor b.gridSize) with
  | .error e => .error e
  | .ok m => .ok (sortByPoints m)

/-- `[Tile(c) for c in ...]`: construct every tile, the first failing
`assert` raising. -/
def mkTiles (charPoints : Char → Nat) :
    List (Char × String) → Except RuzzleError (List Tile)
  | [] => .ok []
  | e :: rest =>
      match mkTile charPoints e.1 e.2 with
      | .error err => .error err
      | .ok t =>
          match mkTiles charPoints rest with
          | .error err => .error err
          | .ok ts => .ok (t :: ts)

/-- The whole construction pipeline for a board: build each tile with
`Tile.__init__` (the only validation in the source), then `Board.__init__`
(which checks nothing further — in particular not the tile count). -/
def buildBoard (charPoints : Char → Nat) (input : List (Char × String))
    (g : Nat := 4) : Except RuzzleError Board :=
  match mkTiles charPoints input with
  | .error e => .error e
  | .ok ts => .ok (Board.ofTiles ts g)

/-- In-bounds predicate for an `N × N` grid, `[0, N) × [0, N)`. -/
def inBounds (g : Nat) (p : Pos) : Prop :=
  0 ≤ p.1 ∧ p.1 < (g : Int) ∧ 0 ≤ p.2 ∧ p.2 < (g : Int)

instance (g : Nat) (p : Pos) : Decidable (inBounds g p) := by
  unfold inBounds; infer_instance

/-- The per-tile letter score as the spec words it: the base character value
multiplied by 2 for a DoubleLetter (`'G'`) bonus, by 3 for a TripleLetter
(`'B'`) bonus, and by 1 otherwise. -/
def specLetterScore (t : Tile) : Nat :=
  t.charScore * (if t.colour = "G" then 2 else if t.colour = "B" then 3 else 1)

/-! ### Concrete boards used as witnesses and counterexamples -/

/-- A tile with base value 1 as `Tile.__init__` would store it (before the
board assigns its position). -/
def tl (c : Char) (col : String := "") : Tile := ⟨c, 1, col, none⟩

/-- 16 tiles (base value 1 each) whose only dictionary word under `vAB` is
`"ab"`, reachable by two disjoint paths: `a(0,0)→b(0,1)` where the `a`
carries a DoubleWord bonus (score 4), and `a(2,2)→b(2,3)` with no bonus
(score 2). -/
def tilesAB : List Tile :=
  [tl 'a' "Y", tl 'b', tl 'z', tl 'z',
   tl 'z', tl 'z', tl 'z', tl 'z',
   tl 'z', tl 'z', tl 'a', tl 'b',
   tl 'z', tl 'z', tl 'z', tl 'z']

/-- The 4×4 board built from `tilesAB`. -/
def bAB : Board := Board.ofTiles tilesAB 4

/-- Vocabulary containing only the word `"ab"`. -/
def vAB : Vocabulary := ⟨[['a', 'b']]⟩

/-- A 4×4 board with a `'b'` at `(0,0)` and an `'a'` at `(3,3)`, both scoring
1 under the vocabulary `{"a", "b"}`: two results with equal score. -/
def bTie : Board := Board.ofTiles
  [tl 'b', tl 'z', tl 'z', tl 'z',
   tl 'z', tl 'z', tl 'z', tl 'z',
   tl 'z', tl 'z', tl 'z', tl 'z',
   tl 'z', tl 'z', tl 'z', tl 'a'] 4

/-- Vocabulary containing the words `"a"` and `"b"`. -/
def vTie : Vocabulary := ⟨[['a'], ['b']]⟩

/-- An all-`'z'` 4×4 board. -/
def bZ : Board := Board.ofTiles (List.replicate 16 (tl 'z')) 4

/-- An all-`'z'` 5×5 board (`grid_size` 5). -/
def b5 : Board := Board.ofTiles (List.replicate 25 (tl 'z')) 5

/-! ### Claim-side definitions -/

/-- Everything a path yielded by `_explore` inherits from the branch path
`base` it extends: its word is in the vocabulary, it is duplicate-free
whenever `base` is, and it is an 8-adjacency chain whenever `base` is. -/
def ExploreInv (b : Board) (voc : Vocabulary) (base r : List Pos) : Prop :=
  (∃ w, b.path2word r = .ok w ∧ voc.containsWord w = true) ∧
  (base.Nodup → r.Nodup) ∧
  (List.Chain' (fun a c => c ∈ neighboursAt a) base →
    List.Chain' (fun a c => c ∈ neighboursAt a) r)

/-- Number of grid cells not yet on the path: the strictly decreasing measure
of the depth-first search. -/
def freeKeys (b : Board) (l : List Pos) : Nat :=
  ((b.grid.map Prod.fst).filter (fun k => decide (k ∉ l))).length

/-- The claim-side letter contribution of the tile stored at `p`. -/
def letterScoreAt (b : Board) (p : Pos) : Nat :=
  match b.find p with
  | some t => specLetterScore t
  | none => 0

/-- Whether the tile stored at `p` carries the DoubleWord bonus. -/
def doubleWordAt (b : Board) (p : Pos) : Bool :=
  match b.find p with
  | some t => t.isDoubleWord
  | none => false

/-- Whether the tile stored at `p` carries the TripleWord bonus. -/
def tripleWordAt (b : Board) (p : Pos) : Bool :=
  match b.find p with
  | some t => t.isTripleWord
  | none => false

/-- Corner cell of the canonical 4×4 grid. -/
def isCorner4 (p : Pos) : Prop :=
  (p.1 = 0 ∨ p.1 = 3) ∧ (p.2 = 0 ∨ p.2 = 3)

instance (p : Pos) : Decidable (isCorner4 p) := by
  unfold isCorner4; infer_instance

/-- Boundary cell (corner or edge) of the canonical 4×4 grid. -/
def isBoundary4 (p : Pos) : Prop :=
  p.1 = 0 ∨ p.1 = 3 ∨ p.2 = 0 ∨ p.2 = 3

instance (p : Pos) : Decidable (isBoundary4 p) := by
  unfold isBoundary4; infer_instance

/-! ### The stable sort -/

theorem mem_insertByPoints {a x : Entry} {l : List Entry} :
    a ∈ insertByPoints x l ↔ a = x ∨ a ∈ l := by
  induction l with
  | nil => simp [insertByPoints]
  | cons y ys ih =>
      by_cases h : y.2.2 < x.2.2
      · simp [insertByPoints, h]
      · simp [insertByPoints, h, ih]; tauto

theorem sorted_insertByPoints {x : Entry} {l : List Entry}
    (hl : l.Pairwise (fun a c => c.2.2 ≤ a.2.2)) :
    (insertByPoints x l).Pairwise (fun a c => c.2.2 ≤ a.2.2) := by
  induction l with
  | nil => simp [insertByPoints]
  | cons y ys ih =>
      rw [List.pairwise_cons] at hl
      by_cases h : y.2.2 < x.2.2
      · rw [insertByPoints, if_pos h]
        refine List.pairwise_cons.2 ⟨?_, List.pairwise_cons.2 hl⟩
        intro c hc
        rcases List.mem_cons.1 hc with hc | hc
        · exact hc ▸ Nat.le_of_lt h
        · exact Nat.le_trans (hl.1 c hc) (Nat.le_of_lt h)
      · rw [insertByPoints, if_neg h]
        refine List.pairwise_cons.2 ⟨?_, ih hl.2⟩
        intro c hc
        rcases mem_insertByPoints.1 hc with rfl | hc
        · exact Nat.le_of_not_lt h
        · exact hl.1 c hc

theorem sorted_sortByPoints_aux {l : List Entry} :
    ∀ acc : List Entry, acc.Pairwise (fun a c => c.2.2 ≤ a.2.2) →
      (l.foldl (fun acc x => insertByPoints x acc) acc).Pairwise
        (fun a c => c.2.2 ≤ a.2.2) := by
  induction l with
  | nil => intro acc h; simpa using h
  | cons x xs ih => intro acc h; exact ih _ (sorted_insertByPoints h)

theorem sorted_sortByPoints (l : List Entry) :
    (sortByPoints l).Pairwise (fun a c => c.2.2 ≤ a.2.2) :=
  sorted_sortByPoints_aux [] (by simp)

theorem mem_sortByPoints_aux {a : Entry} {l : List Entry} :
    ∀ acc : List Entry,
      a ∈ l.foldl (fun acc x => insertByPoints x acc) acc ↔ a ∈ acc ∨ a ∈ l := by
  induction l with
  | nil => intro acc; simp
  | cons x xs ih =>
      intro acc
      rw [List.foldl_cons, ih, mem_insertByPoints]
      simp; tauto

theorem mem_sortByPoints {a : Entry} {l : List Entry} :
    a ∈ sortByPoints l ↔ a ∈ l := by
  rw [sortByPoints, mem_sortByPoints_aux]; simp

/-! ### Basic facts about the grid -/

theorem assignTiles_length (g : Nat) : ∀ (i : Nat) (ts : List Tile),
    (assignTiles g i ts).length = ts.length := by
  intro i ts
  induction ts generalizing i with
  | nil => rfl
  | cons t ts ih => simp [assignTiles, ih]

theorem assignTiles_keys (g : Nat) : ∀ (ts : List Tile) (i : Nat),
    (assignTiles g i ts).map Prod.fst
      = (List.range' i ts.length).map
          (fun j => (((j / g : Nat) : Int), ((j % g : Nat) : Int))) := by
  intro ts
  induction ts with
  | nil => intro i; rfl
  | cons t ts ih =>
      intro i
      simp only [assignTiles, List.map_cons, List.length_cons, List.range'_succ, ih]

theorem tile_ok_iff {b : Board} {p : Pos} {t : Tile} :
    b.tile p = .ok t ↔
      p.1 < (b.gridSize : Int) ∧ p.2 < (b.gridSize : Int) ∧ b.find p = some t := by
  unfold Board.tile
  by_cases h1 : p.1 < (b.gridSize : Int)
  · rw [if_pos h1]
    by_cases h2 : p.2 < (b.gridSize : Int)
    · rw [if_pos h2]
      cases hf : b.find p with
      | some t' => simp [h1, h2]
      | none => simp [h1, h2]
    · rw [if_neg h2]; simp [h2]
  · rw [if_neg h1]; simp [h1]

theorem find_some_mem {b : Board} {p : Pos} {t : Tile} (h : b.find p = some t) :
    (p, t) ∈ b.grid := by
  unfold Board.find at h
  rcases Option.map_eq_some'.1 h with ⟨e, he, rfl⟩
  have hm := List.mem_of_find?_eq_some he
  have hp := List.find?_some he
  simp at hp
  cases e
  simp_all

theorem find_some_mem_keys {b : Board} {p : Pos} {t : Tile}
    (h : b.find p = some t) : p ∈ b.grid.map Prod.fst :=
  List.mem_map.2 ⟨(p, t), find_some_mem h, rfl⟩

theorem find_isSome_iff_mem_keys {b : Board} {p : Pos} :
    (b.find p).isSome ↔ p ∈ b.grid.map Prod.fst := by
  unfold Board.find
  rw [Option.isSome_map', List.find?_isSome]
  constructor
  · rintro ⟨e, he, hp⟩
    simp at hp
    exact List.mem_map.2 ⟨e, he, hp⟩
  · rintro h
    rcases List.mem_map.1 h with ⟨e, he, rfl⟩
    exact ⟨e, he, by simp⟩

theorem mem_keys_ofTiles16 {tiles : List Tile} (h : tiles.length = 16) {p : Pos} :
    p ∈ (Board.ofTiles tiles 4).grid.map Prod.fst ↔ inBounds 4 p := by
  show p ∈ (assignTiles 4 0 tiles).map Prod.fst ↔ _
  rw [assignTiles_keys, h]
  obtain ⟨a, b⟩ := p
  simp only [List.mem_map, List.mem_range', Prod.mk.injEq, inBounds]
  constructor
  · rintro ⟨j, ⟨i, hi, rfl⟩, h1, h2⟩
    simp only [Nat.zero_add] at *
    refine ⟨?_, ?_, ?_, ?_⟩ <;> omega
  · rintro ⟨h1, h2, h3, h4⟩
    refine ⟨a.toNat * 4 + b.toNat, ⟨a.toNat * 4 + b.toNat, by omega, by omega⟩, ?_, ?_⟩ <;> omega

theorem find_isSome_ofTiles16 {tiles : List Tile} (h : tiles.length = 16) {p : Pos} :
    ((Board.ofTiles tiles 4).find p).isSome ↔ inBounds 4 p := by
  rw [find_isSome_iff_mem_keys, mem_keys_ofTiles16 h]

theorem keys_nonneg_ofTiles {tiles : List Tile} {g : Nat} {p : Pos}
    (h : p ∈ (Board.ofTiles tiles g).grid.map Prod.fst) : 0 ≤ p.1 ∧ 0 ≤ p.2 := by
  have : p ∈ (assignTiles g 0 tiles).map Prod.fst := h
  rw [assignTiles_keys] at this
  rcases List.mem_map.1 this with ⟨j, -, rfl⟩
  exact ⟨Int.natCast_nonneg _, Int.natCast_nonneg _⟩

/-! ### Facts about `neighboursAt` -/

theorem neighboursAt_mem_iff {p q : Pos} :
    q ∈ neighboursAt p ↔
      ((1 ≤ p.1 ∧ q = (p.1 - 1, p.2)) ∨ (p.1 ≤ 2 ∧ q = (p.1 + 1, p.2)) ∨
       (1 ≤ p.2 ∧ q = (p.1, p.2 - 1)) ∨ (p.2 ≤ 2 ∧ q = (p.1, p.2 + 1)) ∨
       ((1 ≤ p.1 ∧ 1 ≤ p.2) ∧ q = (p.1 - 1, p.2 - 1)) ∨
       ((1 ≤ p.1 ∧ p.2 ≤ 2) ∧ q = (p.1 - 1, p.2 + 1)) ∨
       ((p.1 ≤ 2 ∧ 1 ≤ p.2) ∧ q = (p.1 + 1, p.2 - 1)) ∨
       ((p.1 ≤ 2 ∧ p.2 ≤ 2) ∧ q = (p.1 + 1, p.2 + 1))) := by
  simp [neighboursAt, List.mem_ite_nil_right, List.mem_append]

/-- Every neighbour the source produces is distinct from the tile itself and
at Chebyshev distance 1 — for any position whatsoever. -/
theorem neighboursAt_cheb {p q : Pos} (h : q ∈ neighboursAt p) :
    q ≠ p ∧ (q.1 - p.1).natAbs ≤ 1 ∧ (q.2 - p.2).natAbs ≤ 1 := by
  obtain ⟨a, b⟩ := p
  obtain ⟨x, y⟩ := q
  rw [neighboursAt_mem_iff] at h
  simp only [Prod.mk.injEq, ne_eq] at *
  rcases h with ⟨h, rfl, rfl⟩ | ⟨h, rfl, rfl⟩ | ⟨h, rfl, rfl⟩ | ⟨h, rfl, rfl⟩ |
    ⟨h, rfl, rfl⟩ | ⟨h, rfl, rfl⟩ | ⟨h, rfl, rfl⟩ | ⟨h, rfl, rfl⟩ <;>
    refine ⟨by omega, by omega, by omega⟩

/-- The hard-coded clipping is correct at grid size 4: neighbours of an
in-bounds cell are in bounds. -/
theorem neighboursAt_inBounds4 {p q : Pos} (hp : inBounds 4 p)
    (hq : q ∈ neighboursAt p) : inBounds 4 q := by
  obtain ⟨a, b⟩ := p
  obtain ⟨x, y⟩ := q
  obtain ⟨h1, h2, h3, h4⟩ := hp
  simp only [Nat.cast_ofNat] at h2 h4
  rw [neighboursAt_mem_iff] at hq
  simp only [Prod.mk.injEq, inBounds, Nat.cast_ofNat]
  rcases hq with ⟨h, rfl, rfl⟩ | ⟨h, rfl, rfl⟩ | ⟨h, rfl, rfl⟩ | ⟨h, rfl, rfl⟩ |
    ⟨⟨ha, hb⟩, rfl, rfl⟩ | ⟨⟨ha, hb⟩, rfl, rfl⟩ | ⟨⟨ha, hb⟩, rfl, rfl⟩ |
    ⟨⟨ha, hb⟩, rfl, rfl⟩ <;>
    refine ⟨by omega, by omega, by omega, by omega⟩

/-- Conversely, at grid size 4 every in-bounds cell at Chebyshev distance 1
is produced. -/
theorem mem_neighboursAt_of_cheb {p q : Pos} (hp : inBounds 4 p)
    (hq : inBounds 4 q) (hne : q ≠ p)
    (hdx : (q.1 - p.1).natAbs ≤ 1) (hdy : (q.2 - p.2).natAbs ≤ 1) :
    q ∈ neighboursAt p := by
  obtain ⟨a, b⟩ := p
  obtain ⟨x, y⟩ := q
  obtain ⟨h1, h2, h3, h4⟩ := hp
  obtain ⟨h5, h6, h7, h8⟩ := hq
  simp only [Nat.cast_ofNat] at h2 h4 h6 h8
  replace hdx : (x - a).natAbs ≤ 1 := hdx
  replace hdy : (y - b).natAbs ≤ 1 := hdy
  have hne' : ¬ (x = a ∧ y = b) := fun hc => hne (by rw [hc.1, hc.2])
  rw [neighboursAt_mem_iff]
  simp only [Prod.mk.injEq]
  have hx : x = a - 1 ∨ x = a ∨ x = a + 1 := by omega
  have hy : y = b - 1 ∨ y = b ∨ y = b + 1 := by omega
  rcases hx with h | h | h
  · subst h
    rcases hy with h | h | h
    · subst h
      exact Or.inr (Or.inr (Or.inr (Or.inr (Or.inl ⟨⟨by omega, by omega⟩, rfl, rfl⟩))))
    · subst h
      exact Or.inl ⟨by omega, rfl, rfl⟩
    · subst h
      exact Or.inr (Or.inr (Or.inr (Or.inr (Or.inr (Or.inl ⟨⟨by omega, by omega⟩, rfl, rfl⟩)))))
  · subst h
    rcases hy with h | h | h
    · subst h
      exact Or.inr (Or.inr (Or.inl ⟨by omega, rfl, rfl⟩))
    · subst h
      exact (hne' ⟨rfl, rfl⟩).elim
    · subst h
      exact Or.inr (Or.inr (Or.inr (Or.inl ⟨by omega, rfl, rfl⟩)))
  · subst h
    rcases hy with h | h | h
    · subst h
      exact Or.inr (Or.inr (Or.inr (Or.inr (Or.inr (Or.inr
        (Or.inl ⟨⟨by omega, by omega⟩, rfl, rfl⟩))))))
    · subst h
      exact Or.inr (Or.inl ⟨by omega, rfl, rfl⟩)
    · subst h
      exact Or.inr (Or.inr (Or.inr (Or.inr (Or.inr (Or.inr
        (Or.inr ⟨⟨by omega, by omega⟩, rfl, rfl⟩))))))

/-! ### The exploration invariant -/

theorem tilesOf_ok_mem {b : Board} :
    ∀ {path : List Pos} {ts : List Tile}, b.tilesOf path = .ok ts →
      ∀ p ∈ path, ∃ t, b.tile p = .ok t := by
  intro path
  induction path with
  | nil => intro ts _ p hp; cases hp
  | cons q rest ih =>
      intro ts h p hp
      rw [Board.tilesOf] at h
      cases hq : b.tile q with
      | error e => rw [hq] at h; cases h
      | ok t =>
          rw [hq] at h
          cases hr : b.tilesOf rest with
          | error e => rw [hr] at h; cases h
          | ok ts' =>
              rcases List.mem_cons.1 hp with rfl | hp
              · exact ⟨t, hq⟩
              · exact ih hr p hp

theorem path2word_ok_keys {b : Board} {r : List Pos} {w : Word}
    (h : b.path2word r = .ok w) : ∀ p ∈ r, p ∈ b.grid.map Prod.fst := by
  intro p hp
  rw [Board.path2word] at h
  cases ht : b.tilesOf r with
  | error e => rw [ht] at h; cases h
  | ok ts =>
      rcases tilesOf_ok_mem ht p hp with ⟨t, htile⟩
      exact find_some_mem_keys (tile_ok_iff.1 htile).2.2

theorem containsWord_keysStarting {voc : Vocabulary} {w : Word}
    (h : voc.containsWord w = true) : voc.keysStarting w = true := by
  rw [Vocabulary.containsWord, decide_eq_true_eq] at h
  exact List.any_eq_true.2 ⟨w, h, List.isPrefixOf_iff_prefix.2 (List.prefix_refl w)⟩

theorem ExploreInv.ofExtend {b : Board} {voc : Vocabulary}
    {path : List Pos} {pos n : Pos} {r : List Pos}
    (hn : n ∈ neighboursAt pos) (hnm : n ∉ path ++ [pos])
    (h : ExploreInv b voc ((path ++ [pos]) ++ [n]) r) :
    ExploreInv b voc (path ++ [pos]) r := by
  obtain ⟨hA, hB, hC⟩ := h
  refine ⟨hA, ?_, ?_⟩
  · intro hnd
    refine hB ?_
    rw [List.nodup_append]
    exact ⟨hnd, List.nodup_singleton n, by simpa using hnm⟩
  · intro hch
    refine hC ?_
    rw [List.chain'_append]
    refine ⟨hch, List.chain'_singleton n, ?_⟩
    intro x hx y hy
    rw [List.getLast?_concat] at hx
    simp only [List.head?_cons, Option.mem_some_iff] at hx hy
    rw [← hx, ← hy]
    exact hn

theorem exploreNbrs_inv {b : Board} {voc : Vocabulary}
    {recurse : Pos → List Pos → Except RuzzleError (List (List Pos))}
    {pos : Pos} {path : List Pos} {w : Word} :
    ∀ (ns : List Pos) (rs : List (List Pos)),
      (∀ n ∈ ns, n ∈ neighboursAt pos) →
      (∀ n rs', n ∈ neighboursAt pos → n ∉ path ++ [pos] →
        recurse n (path ++ [pos]) = .ok rs' →
        ∀ r ∈ rs', ExploreInv b voc ((path ++ [pos]) ++ [n]) r) →
      exploreNbrs b voc recurse w (path ++ [pos]) ns = .ok rs →
      ∀ r ∈ rs, ExploreInv b voc (path ++ [pos]) r := by
  intro ns
  induction ns with
  | nil =>
      intro rs _ _ h r hr
      rw [exploreNbrs] at h
      injection h with h
      rw [← h] at hr
      cases hr
  | cons n rest ih =>
      intro rs hns hrec h r hr
      rw [exploreNbrs] at h
      by_cases hmem : n ∈ path ++ [pos]
      · rw [if_pos hmem] at h
        exact ih rs (fun m hm => hns m (List.mem_cons_of_mem n hm)) hrec h r hr
      · rw [if_neg hmem] at h
        by_cases hks : voc.keysStarting w
        · rw [if_pos hks] at h
          cases ht : b.tile n with
          | error e => rw [ht] at h; cases h
          | ok t =>
              rw [ht] at h
              cases hrc : recurse n (path ++ [pos]) with
              | error e => rw [hrc] at h; cases h
              | ok rs1 =>
                  rw [hrc] at h
                  cases hrest : exploreNbrs b voc recurse w (path ++ [pos]) rest with
                  | error e => rw [hrest] at h; cases h
                  | ok rs2 =>
                      rw [hrest] at h
                      injection h with h
                      rw [← h] at hr
                      rcases List.mem_append.1 hr with hr | hr
                      · have hn := hns n (List.mem_cons_self n rest)
                        exact ExploreInv.ofExtend hn hmem
                          (hrec n rs1 hn hmem hrc r hr)
                      · exact ih rs2 (fun m hm => hns m (List.mem_cons_of_mem n hm)) hrec hrest r hr
        · rw [if_neg hks] at h
          exact ih rs (fun m hm => hns m (List.mem_cons_of_mem n hm)) hrec h r hr

/-- One-step unfolding of the embedded `_explore` at positive fuel. -/
theorem explore_succ (b : Board) (voc : Vocabulary) (fuel : Nat)
    (pos : Pos) (path : List Pos) :
    b.explore voc (fuel + 1) pos path
      = match b.path2word (path ++ [pos]) with
        | .error e => .error e
        | .ok w =>
            match exploreNbrs b voc (b.explore voc fuel) w (path ++ [pos])
                (neighboursAt pos) with
            | .error e => .error e
            | .ok rs =>
                .ok (rs ++ if voc.containsWord w then [path ++ [pos]] else []) := rfl

theorem explore_inv {b : Board} {voc : Vocabulary} :
    ∀ (fuel : Nat) (pos : Pos) (path : List Pos) (rs : List (List Pos)),
      b.explore voc fuel pos path = .ok rs →
      ∀ r ∈ rs, ExploreInv b voc (path ++ [pos]) r := by
  intro fuel
  induction fuel with
  | zero => intro pos path rs h; cases h
  | succ fuel ih =>
      intro pos path rs h
      rw [explore_succ] at h
      cases hw : b.path2word (path ++ [pos]) with
      | error e => rw [hw] at h; cases h
      | ok w =>
          simp only [hw] at h
          cases hn : exploreNbrs b voc (b.explore voc fuel) w (path ++ [pos])
              (neighboursAt pos) with
          | error e => simp only [hn] at h; cases h
          | ok rs0 =>
              simp only [hn, Except.ok.injEq] at h
              intro r hr
              rw [← h] at hr
              rcases List.mem_append.1 hr with hr | hr
              · exact exploreNbrs_inv (neighboursAt pos) rs0 (fun m hm => hm)
                  (fun n rs' _ _ hrec => ih n (path ++ [pos]) rs' hrec) hn r hr
              · by_cases hc : voc.containsWord w
                · rw [if_pos hc] at hr
                  rcases List.mem_singleton.1 hr with rfl
                  exact ⟨⟨w, hw, hc⟩, fun hnd => hnd, fun hch => hch⟩
                · rw [if_neg hc] at hr
                  cases hr

/-! ### From yielded paths to the entries of `possible_words` -/

theorem updateWord_mem {m : List Entry} {k : Word} {v : List Pos × Nat} :
    ∀ e ∈ updateWord m k v, e ∈ m ∨ e = (k, v) := by
  induction m with
  | nil => intro e he; rw [updateWord] at he; simp at he; exact Or.inr he
  | cons y rest ih =>
      intro e he
      rw [updateWord] at he
      by_cases hk : y.1 = k
      · rw [if_pos hk] at he
        rcases List.mem_cons.1 he with rfl | he
        · exact Or.inr rfl
        · exact Or.inl (List.mem_cons_of_mem y he)
      · rw [if_neg hk] at he
        rcases List.mem_cons.1 he with rfl | he
        · exact Or.inl (List.mem_cons_self y rest)
        · rcases ih e he with h | h
          · exact Or.inl (List.mem_cons_of_mem y h)
          · exact Or.inr h

theorem recordPaths_mem {b : Board} :
    ∀ {ps : List (List Pos)} {m m' : List Entry}, recordPaths b m ps = .ok m' →
      ∀ e ∈ m', e ∈ m ∨
        ∃ p ∈ ps, b.path2word p = .ok e.1 ∧ b.points p = .ok e.2.2 ∧ e.2.1 = p := by
  intro ps
  induction ps with
  | nil =>
      intro m m' h e he
      rw [recordPaths] at h
      injection h with h
      rw [h]
      exact Or.inl he
  | cons p rest ih =>
      intro m m' h e he
      rw [recordPaths] at h
      cases hw : b.path2word p with
      | error err => rw [hw] at h; cases h
      | ok w =>
          simp only [hw] at h
          cases hp : b.points p with
          | error err => rw [hp] at h; cases h
          | ok pts =>
              simp only [hp] at h
              rcases ih h e he with h' | ⟨q, hq, h1, h2, h3⟩
              · rcases updateWord_mem e h' with h'' | h''
                · exact Or.inl h''
                · refine Or.inr ⟨p, List.mem_cons_self p rest, ?_, ?_, ?_⟩
                  · rw [h'']; exact hw
                  · rw [h'']; exact hp
                  · rw [h'']
              · exact Or.inr ⟨q, List.mem_cons_of_mem p hq, h1, h2, h3⟩

theorem cellsLoop_mem {b : Board} {voc : Vocabulary} :
    ∀ {cs : List Pos} {m m' : List Entry}, cellsLoop b voc m cs = .ok m' →
      ∀ e ∈ m', e ∈ m ∨
        ∃ c ∈ cs, ∃ paths, b.explore voc (b.grid.length + 1) c [] = .ok paths ∧
          ∃ p ∈ paths, b.path2word p = .ok e.1 ∧ b.points p = .ok e.2.2 ∧ e.2.1 = p := by
  intro cs
  induction cs with
  | nil =>
      intro m m' h e he
      rw [cellsLoop] at h
      injection h with h
      rw [h]
      exact Or.inl he
  | cons c rest ih =>
      intro m m' h e he
      rw [cellsLoop] at h
      cases ht : b.tile c with
      | error err => rw [ht] at h; cases h
      | ok t =>
          simp only [ht] at h
          cases hx : b.explore voc (b.grid.length + 1) c [] with
          | error err => rw [hx] at h; cases h
          | ok paths =>
              simp only [hx] at h
              cases hr : recordPaths b m paths with
              | error err => rw [hr] at h; cases h
              | ok m'' =>
                  simp only [hr] at h
                  rcases ih h e he with h' | ⟨c', hc', rest'⟩
                  · rcases recordPaths_mem hr e h' with h'' | ⟨p, hp, h1, h2, h3⟩
                    · exact Or.inl h''
                    · exact Or.inr ⟨c, List.mem_cons_self c rest, paths, hx, p, hp, h1, h2, h3⟩
                  · exact Or.inr ⟨c', List.mem_cons_of_mem c hc', rest'⟩

/-- Every entry of a successful `possible_words` run comes from a path that
`_explore` yielded from some starting cell. -/
theorem possible_words_mem {b : Board} {voc : Vocabulary} {rs : List Entry}
    (h : b.possible_words voc = .ok rs) :
    ∀ e ∈ rs, ∃ c ∈ rowMajor b.gridSize, ∃ paths,
      b.explore voc (b.grid.length + 1) c [] = .ok paths ∧
      ∃ p ∈ paths, b.path2word p = .ok e.1 ∧ b.points p = .ok e.2.2 ∧ e.2.1 = p := by
  intro e he
  rw [Board.possible_words] at h
  cases hc : cellsLoop b voc [] (rowMajor b.gridSize) with
  | error err => rw [hc] at h; cases h
  | ok m =>
      simp only [hc, Except.ok.injEq] at h
      rw [← h] at he
      rcases cellsLoop_mem hc e (mem_sortByPoints.1 he) with h' | h'
      · cases h'
      · exact h'

/-! ### The fuel is never exhausted: the source recursion terminates -/

theorem length_filter_mono {α : Type} (p q : α → Bool)
    (h : ∀ x, q x = true → p x = true) :
    ∀ K : List α, (K.filter q).length ≤ (K.filter p).length := by
  intro K
  induction K with
  | nil => simp
  | cons a K ih =>
      by_cases hq : q a
      · rw [List.filter_cons_of_pos hq, List.filter_cons_of_pos (h a hq)]
        simpa using ih
      · rw [List.filter_cons_of_neg (by simpa using hq)]
        by_cases hp : p a
        · rw [List.filter_cons_of_pos hp]
          exact Nat.le_succ_of_le ih
        · rw [List.filter_cons_of_neg (by simpa using hp)]
          exact ih

theorem length_filter_strict {α : Type} (p q : α → Bool)
    (h : ∀ x, q x = true → p x = true) :
    ∀ K : List α, ∀ n ∈ K, p n = true → q n = false →
      (K.filter q).length < (K.filter p).length := by
  intro K
  induction K with
  | nil => intro n hn; cases hn
  | cons a K ih =>
      intro n hn hp hq
      rcases List.mem_cons.1 hn with rfl | hn
      · rw [List.filter_cons_of_pos hp, List.filter_cons_of_neg (by simp [hq])]
        exact Nat.lt_succ_of_le (length_filter_mono p q h K)
      · by_cases hqa : q a
        · rw [List.filter_cons_of_pos hqa, List.filter_cons_of_pos (h a hqa)]
          simpa using ih n hn hp hq
        · rw [List.filter_cons_of_neg (by simpa using hqa)]
          refine Nat.lt_of_lt_of_le (ih n hn hp hq) ?_
          by_cases hpa : p a
          · rw [List.filter_cons_of_pos hpa]; exact Nat.le_succ _
          · rw [List.filter_cons_of_neg (by simpa using hpa)]

theorem freeKeys_concat_lt {b : Board} {l : List Pos} {n : Pos}
    (hk : n ∈ b.grid.map Prod.fst) (hl : n ∉ l) :
    freeKeys b (l ++ [n]) < freeKeys b l := by
  refine length_filter_strict _ _ ?_ _ n hk (by simpa using hl) (by simp)
  intro x hx
  simp at hx ⊢
  exact hx.1

theorem freeKeys_le_length (b : Board) (l : List Pos) :
    freeKeys b l ≤ b.grid.length := by
  refine Nat.le_trans (List.length_filter_le _ _) ?_
  simp

theorem tile_error_kind {b : Board} {p : Pos} {e : RuzzleError}
    (h : b.tile p = .error e) : e = .keyError ∨ e = .assertionFailed := by
  rw [Board.tile] at h
  by_cases h1 : p.1 < (b.gridSize : Int)
  · rw [if_pos h1] at h
    by_cases h2 : p.2 < (b.gridSize : Int)
    · rw [if_pos h2] at h
      cases hf : b.find p with
      | some t => rw [hf] at h; cases h
      | none => rw [hf] at h; injection h with h; exact Or.inl h.symm
    · rw [if_neg h2] at h; injection h with h; exact Or.inr h.symm
  · rw [if_neg h1] at h; injection h with h; exact Or.inr h.symm

theorem tilesOf_error_kind {b : Board} :
    ∀ {path : List Pos} {e : RuzzleError}, b.tilesOf path = .error e →
      e = .keyError ∨ e = .assertionFailed := by
  intro path
  induction path with
  | nil => intro e h; cases h
  | cons p rest ih =>
      intro e h
      rw [Board.tilesOf] at h
      cases ht : b.tile p with
      | error e' => rw [ht] at h; injection h with h; exact h ▸ tile_error_kind ht
      | ok t =>
          simp only [ht] at h
          cases hr : b.tilesOf rest with
          | error e' => rw [hr] at h; injection h with h; exact h ▸ ih hr
          | ok ts => rw [hr] at h; cases h

theorem path2word_error_kind {b : Board} {path : List Pos} {e : RuzzleError}
    (h : b.path2word path = .error e) : e = .keyError ∨ e = .assertionFailed := by
  rw [Board.path2word] at h
  cases ht : b.tilesOf path with
  | error e' => rw [ht] at h; injection h with h; exact h ▸ tilesOf_error_kind ht
  | ok ts => rw [ht] at h; cases h

theorem points_error_kind {b : Board} {path : List Pos} {e : RuzzleError}
    (h : b.points path = .error e) : e = .keyError ∨ e = .assertionFailed := by
  rw [Board.points] at h
  cases ht : b.tilesOf path with
  | error e' => rw [ht] at h; injection h with h; exact h ▸ tilesOf_error_kind ht
  | ok ts => rw [ht] at h; cases h

theorem exploreNbrs_ne_depth {b : Board} {voc : Vocabulary}
    {recurse : Pos → List Pos → Except RuzzleError (List (List Pos))}
    {w : Word} {path' : List Pos} :
    ∀ ns : List Pos,
      (∀ n ∈ ns, n ∉ path' → (∃ t, b.tile n = .ok t) →
        recurse n path' ≠ .error .depthExceeded) →
      exploreNbrs b voc recurse w path' ns ≠ .error .depthExceeded := by
  intro ns
  induction ns with
  | nil => intro _ h; rw [exploreNbrs] at h; cases h
  | cons n rest ih =>
      intro hrec h
      rw [exploreNbrs] at h
      by_cases hmem : n ∈ path'
      · rw [if_pos hmem] at h
        exact ih (fun m hm => hrec m (List.mem_cons_of_mem n hm)) h
      · rw [if_neg hmem] at h
        by_cases hks : voc.keysStarting w
        · rw [if_pos hks] at h
          cases ht : b.tile n with
          | error e =>
              rw [ht] at h
              injection h with h
              rcases tile_error_kind ht with rfl | rfl <;> cases h
          | ok t =>
              simp only [ht] at h
              cases hrc : recurse n path' with
              | error e =>
                  rw [hrc] at h
                  injection h with h
                  exact hrec n (List.mem_cons_self n rest) hmem ⟨t, ht⟩ (h ▸ hrc)
              | ok rs1 =>
                  simp only [hrc] at h
                  cases hrest : exploreNbrs b voc recurse w path' rest with
                  | error e =>
                      rw [hrest] at h
                      injection h with h
                      exact ih (fun m hm => hrec m (List.mem_cons_of_mem n hm)) (h ▸ hrest)
                  | ok rs2 => rw [hrest] at h; cases h
        · rw [if_neg hks] at h
          exact ih (fun m hm => hrec m (List.mem_cons_of_mem n hm)) h

theorem explore_ne_depth {b : Board} {voc : Vocabulary} :
    ∀ (fuel : Nat) (pos : Pos) (path : List Pos),
      freeKeys b (path ++ [pos]) < fuel →
      b.explore voc fuel pos path ≠ .error .depthExceeded := by
  intro fuel
  induction fuel with
  | zero => intro pos path hlt; cases hlt
  | succ fuel ih =>
      intro pos path hlt h
      rw [explore_succ] at h
      cases hw : b.path2word (path ++ [pos]) with
      | error e =>
          rw [hw] at h
          injection h with h
          rcases path2word_error_kind hw with rfl | rfl <;> cases h
      | ok w =>
          simp only [hw] at h
          cases hn : exploreNbrs b voc (b.explore voc fuel) w (path ++ [pos])
              (neighboursAt pos) with
          | error e =>
              rw [hn] at h
              injection h with h
              refine exploreNbrs_ne_depth (neighboursAt pos) ?_ (h ▸ hn)
              intro n _ hnm ⟨t, ht⟩
              refine ih n (path ++ [pos]) ?_
              have hk : n ∈ b.grid.map Prod.fst :=
                find_some_mem_keys (tile_ok_iff.1 ht).2.2
              exact Nat.lt_of_lt_of_le (freeKeys_concat_lt hk hnm) (Nat.lt_succ_iff.1 hlt)
          | ok rs0 => simp only [hn] at h; cases h

theorem recordPaths_ne_depth {b : Board} :
    ∀ {ps : List (List Pos)} {m : List Entry},
      recordPaths b m ps ≠ .error .depthExceeded := by
  intro ps
  induction ps with
  | nil => intro m h; rw [recordPaths] at h; cases h
  | cons p rest ih =>
      intro m h
      rw [recordPaths] at h
      cases hw : b.path2word p with
      | error e =>
          rw [hw] at h
          injection h with h
          rcases path2word_error_kind hw with rfl | rfl <;> cases h
      | ok w =>
          simp only [hw] at h
          cases hp : b.points p with
          | error e =>
              rw [hp] at h
              injection h with h
              rcases points_error_kind hp with rfl | rfl <;> cases h
          | ok pts => simp only [hp] at h; exact ih h

theorem cellsLoop_ne_depth {b : Board} {voc : Vocabulary} :
    ∀ {cs : List Pos} {m : List Entry},
      cellsLoop b voc m cs ≠ .error .depthExceeded := by
  intro cs
  induction cs with
  | nil => intro m h; rw [cellsLoop] at h; cases h
  | cons c rest ih =>
      intro m h
      rw [cellsLoop] at h
      cases ht : b.tile c with
      | error e =>
          rw [ht] at h
          injection h with h
          rcases tile_error_kind ht with rfl | rfl <;> cases h
      | ok t =>
          simp only [ht] at h
          cases hx : b.explore voc (b.grid.length + 1) c [] with
          | error e =>
              rw [hx] at h
              injection h with h
              refine explore_ne_depth (b.grid.length + 1) c [] ?_ (h ▸ hx)
              exact Nat.lt_succ_of_le (freeKeys_le_length b [c])
          | ok paths =>
              simp only [hx] at h
              cases hr : recordPaths b m paths with
              | error e =>
                  rw [hr] at h
                  injection h with h
                  exact recordPaths_ne_depth (h ▸ hr)
              | ok m' => simp only [hr] at h; exact ih h

theorem possible_words_ne_depth (b : Board) (voc : Vocabulary) :
    b.possible_words voc ≠ .error .depthExceeded := by
  intro h
  rw [Board.possible_words] at h
  cases hc : cellsLoop b voc [] (rowMajor b.gridSize) with
  | error e =>
      rw [hc] at h
      injection h with h
      exact cellsLoop_ne_depth (h ▸ hc)
  | ok m => rw [hc] at h; cases h

/-- A duplicate-free list of positions that all lie in another list is no
longer than it. -/
theorem nodup_subset_length {r K : List Pos} (hnd : r.Nodup)
    (hsub : ∀ p ∈ r, p ∈ K) : r.length ≤ K.length := by
  calc r.length = r.toFinset.card := (List.toFinset_card_of_nodup hnd).symm
    _ ≤ K.toFinset.card := by
        refine Finset.card_le_card ?_
        intro x hx
        rw [List.mem_toFinset] at hx ⊢
        exact hsub x hx
    _ ≤ K.length := List.toFinset_card_le K

/-! ### What the recursion guard actually tests (claim C5) -/

theorem exploreNbrs_dead {b : Board} {voc : Vocabulary}
    {recurse : Pos → List Pos → Except RuzzleError (List (List Pos))}
    {w : Word} {path' : List Pos} (hks : voc.keysStarting w = false) :
    ∀ ns : List Pos, exploreNbrs b voc recurse w path' ns = .ok [] := by
  intro ns
  induction ns with
  | nil => rfl
  | cons n rest ih =>
      rw [exploreNbrs]
      by_cases hmem : n ∈ path'
      · rw [if_pos hmem]; exact ih
      · rw [if_neg hmem, hks]
        simpa using ih

/-- A branch whose own word already fails the prefix test neither recurses
nor yields: it contributes nothing at all. -/
theorem explore_dead {b : Board} {voc : Vocabulary} {pos : Pos}
    {path : List Pos} {w : Word} {fuel : Nat}
    (hw : b.path2word (path ++ [pos]) = .ok w)
    (hks : voc.keysStarting w = false) :
    b.explore voc (fuel + 1) pos path = .ok [] := by
  rw [explore_succ]
  simp only [hw, exploreNbrs_dead hks]
  have hc : voc.containsWord w = false := by
    cases hcw : voc.containsWord w
    · rfl
    · rw [containsWord_keysStarting hcw] at hks; cases hks
  rw [hc]
  simp

theorem exploreNbrs_enters {b : Board} {voc : Vocabulary}
    {recurse : Pos → List Pos → Except RuzzleError (List (List Pos))}
    {w : Word} {path' : List Pos} {n : Pos} :
    ∀ (ns : List Pos) (rs : List (List Pos)), n ∈ ns → n ∉ path' →
      voc.keysStarting w = true →
      exploreNbrs b voc recurse w path' ns = .ok rs →
      ∃ rs1, recurse n path' = .ok rs1 ∧ ∀ r ∈ rs1, r ∈ rs := by
  intro ns
  induction ns with
  | nil => intro rs hn; cases hn
  | cons a rest ih =>
      intro rs hn hnm hks h
      rw [exploreNbrs] at h
      by_cases hma : a ∈ path'
      · rw [if_pos hma] at h
        have hna : n ≠ a := fun he => hnm (he ▸ hma)
        rcases List.mem_cons.1 hn with rfl | hn
        · exact absurd rfl hna
        · exact ih rs hn hnm hks h
      · rw [if_neg hma, if_pos hks] at h
        cases ht : b.tile a with
        | error e => rw [ht] at h; cases h
        | ok t =>
            simp only [ht] at h
            cases hrc : recurse a path' with
            | error e => rw [hrc] at h; cases h
            | ok rs1a =>
                simp only [hrc] at h
                cases hrest : exploreNbrs b voc recurse w path' rest with
                | error e => rw [hrest] at h; cases h
                | ok rs2 =>
                    simp only [hrest, Except.ok.injEq] at h
                    by_cases hna : n = a
                    · refine ⟨rs1a, hna ▸ hrc, ?_⟩
                      intro r hr
                      rw [← h]
                      exact List.mem_append.2 (Or.inl hr)
                    · rcases List.mem_cons.1 hn with rfl | hn
                      · exact absurd rfl hna
                      · rcases ih rs2 hn hnm hks hrest with ⟨rs1, h1, h2⟩
                        refine ⟨rs1, h1, ?_⟩
                        intro r hr
                        rw [← h]
                        exact List.mem_append.2 (Or.inr (h2 r hr))

/-- When the loop of `_explore` reaches the recursive call for neighbour `n`
(`entersNeighbour`), every path the sub-branch yields is among the yields of
the parent branch. -/
theorem explore_enters {b : Board} {voc : Vocabulary} {pos n : Pos}
    {path : List Pos} {fuel : Nat} {rs : List (List Pos)}
    (he : b.entersNeighbour voc pos path n = true)
    (h : b.explore voc (fuel + 1) pos path = .ok rs) :
    ∃ rs1, b.explore voc fuel n (path ++ [pos]) = .ok rs1 ∧ ∀ r ∈ rs1, r ∈ rs := by
  rw [Board.entersNeighbour] at he
  cases hw : b.path2word (path ++ [pos]) with
  | error e => rw [hw] at he; cases he
  | ok w =>
      simp only [hw, Bool.and_eq_true, Bool.not_eq_eq_eq_not, Bool.not_true,
        decide_eq_true_eq, decide_eq_false_iff_not] at he
      obtain ⟨⟨⟨hmem, hnm⟩, hks⟩, -⟩ := he
      rw [explore_succ] at h
      simp only [hw] at h
      cases hn : exploreNbrs b voc (b.explore voc fuel) w (path ++ [pos])
          (neighboursAt pos) with
      | error e => rw [hn] at h; cases h
      | ok rs0 =>
          simp only [hn, Except.ok.injEq] at h
          rcases exploreNbrs_enters (neighboursAt pos) rs0 hmem hnm hks hn with
            ⟨rs1, h1, h2⟩
          refine ⟨rs1, h1, ?_⟩
          intro r hr
          rw [← h]
          exact List.mem_append.2 (Or.inl (h2 r hr))

/-! ### The scoring formula (claim C2) -/

theorem tile_points_eq_spec (t : Tile) : t.points = specLetterScore t := by
  rw [Tile.points, specLetterScore]
  by_cases hG : t.colour = "G"
  · rw [if_pos hG, if_pos hG]
  · rw [if_neg hG, if_neg hG]
    by_cases hB : t.colour = "B"
    · rw [if_pos hB, if_pos hB]
    · rw [if_neg hB, if_neg hB, Nat.mul_one]

theorem tilesOf_formula {b : Board} :
    ∀ path : List Pos, (∀ p ∈ path, ∃ t, b.tile p = .ok t) →
      ∃ ts, b.tilesOf path = .ok ts ∧
        ts.map Tile.points = path.map (letterScoreAt b) ∧
        (ts.filter Tile.isDoubleWord).length = path.countP (doubleWordAt b) ∧
        (ts.filter Tile.isTripleWord).length = path.countP (tripleWordAt b) := by
  intro path
  induction path with
  | nil => intro _; exact ⟨[], rfl, rfl, rfl, rfl⟩
  | cons p rest ih =>
      intro h
      rcases h p (List.mem_cons_self p rest) with ⟨t, ht⟩
      rcases ih (fun q hq => h q (List.mem_cons_of_mem p hq)) with ⟨ts, h1, h2, h3, h4⟩
      have hfind : b.find p = some t := (tile_ok_iff.1 ht).2.2
      refine ⟨t :: ts, ?_, ?_, ?_, ?_⟩
      · rw [Board.tilesOf, ht, h1]
      · rw [List.map_cons, List.map_cons, h2, letterScoreAt, hfind,
          tile_points_eq_spec]
      · rw [List.countP_cons, ← h3, doubleWordAt, hfind]
        cases hdw : t.isDoubleWord
        · rw [List.filter_cons_of_neg (by simp [hdw])]; simp [hdw]
        · rw [List.filter_cons_of_pos (by simp [hdw])]; simp [hdw]
      · rw [List.countP_cons, ← h4, tripleWordAt, hfind]
        cases htw : t.isTripleWord
        · rw [List.filter_cons_of_neg (by simp [htw])]; simp [htw]
        · rw [List.filter_cons_of_pos (by simp [htw])]; simp [htw]

theorem points_formula {b : Board} {path : List Pos}
    (h : ∀ p ∈ path, ∃ t, b.tile p = .ok t) :
    b.points path = .ok ((path.map (letterScoreAt b)).sum
      * 2 ^ path.countP (doubleWordAt b) * 3 ^ path.countP (tripleWordAt b)) := by
  rcases tilesOf_formula path h with ⟨ts, h1, h2, h3, h4⟩
  simp only [Board.points, h1]
  rw [h2, h3, h4]

/-! ## The claims -/

/-- Claim C4, counterexample.  The claim quantifies over every grid size `N`
fixed at construction, but `Tile.neighbours` hard-codes the bounds of a 4×4
grid (`>= 1` / `<= 2`).  On a 5×5 board the interior cell `(3,3)` must,
according to the claim, have its Chebyshev-distance-1 neighbour `(4,4)`
(which is in `[0,5)²`), yet the tile's neighbour set omits it. -/
theorem C4_counterexample :
    ((b5.find ((3 : Int), (3 : Int))).map Tile.neighbourSet)
        = some (neighboursAt ((3 : Int), (3 : Int)))
    ∧ inBounds 5 ((3 : Int), (3 : Int)) ∧ inBounds 5 ((4 : Int), (4 : Int))
    ∧ ((4 : Int), (4 : Int)) ≠ ((3 : Int), (3 : Int))
    ∧ ((4 : Int) - (3 : Int)).natAbs ≤ 1
    ∧ ((4 : Int), (4 : Int)) ∉ neighboursAt ((3 : Int), (3 : Int)) := by
  refine ⟨rfl, by decide, by decide, by decide, by decide, by decide⟩

/-- Claim C4, amended to the canonical grid size 4 (the only size for which
the hard-coded bounds of `Tile.neighbours` are correct): for every in-bounds
position of the 4×4 grid, the neighbour function returns exactly the
positions at Chebyshev distance 1 (excluding the position itself) clipped to
`[0,4)²`; corner cells have exactly 3 neighbours, non-corner edge cells
exactly 5, and interior cells exactly 8. -/
theorem C4_neighbours_canonical : ∀ p : Pos, inBounds 4 p →
    (∀ q : Pos, q ∈ neighboursAt p ↔
      (q ≠ p ∧ (q.1 - p.1).natAbs ≤ 1 ∧ (q.2 - p.2).natAbs ≤ 1 ∧ inBounds 4 q))
    ∧ (isCorner4 p → (neighboursAt p).length = 3)
    ∧ (isBoundary4 p → ¬ isCorner4 p → (neighboursAt p).length = 5)
    ∧ (¬ isBoundary4 p → (neighboursAt p).length = 8) := by
  intro p hp
  refine ⟨?_, ?_⟩
  · intro q
    constructor
    · intro hq
      rcases neighboursAt_cheb hq with ⟨hne, hdx, hdy⟩
      exact ⟨hne, hdx, hdy, neighboursAt_inBounds4 hp hq⟩
    · rintro ⟨hne, hdx, hdy, hq⟩
      exact mem_neighboursAt_of_cheb hp hq hne hdx hdy
  · obtain ⟨a, b⟩ := p
    obtain ⟨h1, h2, h3, h4⟩ := hp
    simp only [Nat.cast_ofNat] at h2 h4
    interval_cases a <;> interval_cases b <;>
      refine ⟨by decide, by decide, by decide⟩

/-- Claim C4, witness: the corner `(0,0)` of the canonical grid has exactly
3 neighbours. -/
theorem C4_witness : (neighboursAt ((0 : Int), (0 : Int))).length = 3 :=
  (C4_neighbours_canonical ((0 : Int), (0 : Int)) (by decide)).2.1 (by decide)

/-- Claim C2: on a full canonical board, for every path of in-bounds
positions, `Board.points` returns the sum over the path's tiles of the
tile's base character value multiplied by 2 for a DoubleLetter (`'G'`)
bonus, by 3 for a TripleLetter (`'B'`) bonus and by 1 otherwise, multiplied
by `2 ^ (number of DoubleWord tiles on the path)` and by
`3 ^ (number of TripleWord tiles on the path)`: word multipliers compound
across every word-bonus tile. -/
theorem C2_points_formula : ∀ tiles : List Tile, tiles.length = 16 →
    ∀ path : List Pos, (∀ p ∈ path, inBounds 4 p) →
      (Board.ofTiles tiles 4).points path
        = .ok ((path.map (letterScoreAt (Board.ofTiles tiles 4))).sum
            * 2 ^ path.countP (doubleWordAt (Board.ofTiles tiles 4))
            * 3 ^ path.countP (tripleWordAt (Board.ofTiles tiles 4))) := by
  intro tiles h16 path hin
  refine points_formula ?_
  intro p hp
  have hs := (find_isSome_ofTiles16 h16).2 (hin p hp)
  rcases Option.isSome_iff_exists.1 hs with ⟨t, ht⟩
  exact ⟨t, tile_ok_iff.2 ⟨(hin p hp).2.1, (hin p hp).2.2.2, ht⟩⟩

/-- Claim C2, witness: on `bAB`, the path `a(0,0,DoubleWord) → b(0,1)` with
base values 1 scores `(1·1 + 1·1) · 2¹ · 3⁰ = 4`, matching the formula. -/
theorem C2_witness :
    bAB.points [((0 : Int), (0 : Int)), ((0 : Int), (1 : Int))]
      = .ok ((([((0 : Int), (0 : Int)), ((0 : Int), (1 : Int))]).map (letterScoreAt bAB)).sum
          * 2 ^ ([((0 : Int), (0 : Int)), ((0 : Int), (1 : Int))]).countP (doubleWordAt bAB)
          * 3 ^ ([((0 : Int), (0 : Int)), ((0 : Int), (1 : Int))]).countP (tripleWordAt bAB)) :=
  C2_points_formula tilesAB (by decide)
    [((0 : Int), (0 : Int)), ((0 : Int), (1 : Int))] (by decide)

/-- Claim C6, counterexample.  On `bTie` with vocabulary `{"a", "b"}` both
words score 1; the source sorts only by points (`key=lambda x: x[1][1]`,
stable), with no tie-break on the word, so the output keeps the dict order
(modelled as insertion order): `"b"` — found from the earlier starting cell
`(0,0)` — precedes `"a"` although `'a' < 'b'`, violating the claimed
ascending lexicographic order among equal scores. -/
theorem C6_counterexample :
    bTie.possible_words vTie
      = .ok [(['b'], ([((0 : Int), (0 : Int))], 1)), (['a'], ([((3 : Int), (3 : Int))], 1))]
    ∧ 'a' < 'b' := ⟨rfl, by decide⟩

/-- Claim C6, amended: the ranked output is sorted by (non-strictly)
descending score; the relative order of equal scores is the order of the
source's `words` dict, with no lexicographic tie-break. -/
theorem C6_sorted_desc : ∀ (b : Board) (voc : Vocabulary) (rs : List Entry),
    b.possible_words voc = .ok rs →
    rs.Pairwise (fun x y => y.2.2 ≤ x.2.2) := by
  intro b voc rs h
  rw [Board.possible_words] at h
  cases hc : cellsLoop b voc [] (rowMajor b.gridSize) with
  | error e => rw [hc] at h; cases h
  | ok m =>
      simp only [hc, Except.ok.injEq] at h
      rw [← h]
      exact sorted_sortByPoints m

/-- Claim C6, witness: the two equal-scored entries of `bTie`'s output are
(weakly) sorted by descending score. -/
theorem C6_witness :
    ([(['b'], ([((0 : Int), (0 : Int))], 1)), (['a'], ([((3 : Int), (3 : Int))], 1))]
      : List Entry).Pairwise (fun x y => y.2.2 ≤ x.2.2) :=
  C6_sorted_desc bTie vTie _ rfl

/-- Claim C1.  `possible_words` overwrites a word's stored `(path, points)`
with whichever branch finds it last (`words[wrd_form] = ...`), not with the
best one.  On `bAB` the word `"ab"` is reachable from starting cell `(0,0)`
with score 4 (DoubleWord on the `a`) and from the later starting cell
`(2,2)` with score 2; the claim requires the result to keep score 4, but
the code returns the path of score 2 found last.  The last two conjuncts
evaluate the higher-scoring path for the same word. -/
theorem C1_lastWriteWins :
    bAB.possible_words vAB
      = .ok [(['a', 'b'], ([((2 : Int), (2 : Int)), ((2 : Int), (3 : Int))], 2))]
    ∧ bAB.path2word [((0 : Int), (0 : Int)), ((0 : Int), (1 : Int))] = .ok ['a', 'b']
    ∧ bAB.points [((0 : Int), (0 : Int)), ((0 : Int), (1 : Int))] = .ok 4 :=
  ⟨rfl, rfl, rfl⟩

/-- Claim C3: every `(word, (path, points))` entry of a successful
`possible_words` run has a word that is an exact vocabulary member, a path
whose letters concatenate to exactly that word, and no repeated position on
the path. -/
theorem C3_soundness : ∀ (b : Board) (voc : Vocabulary) (rs : List Entry),
    b.possible_words voc = .ok rs → ∀ e ∈ rs,
      voc.containsWord e.1 = true ∧ b.path2word e.2.1 = .ok e.1 ∧ e.2.1.Nodup := by
  intro b voc rs h e he
  rcases possible_words_mem h e he with ⟨c, -, paths, hx, p, hp, h1, -, h3⟩
  rcases explore_inv _ c [] paths hx p hp with ⟨⟨w, hw, hcw⟩, hnd, -⟩
  have hweq : w = e.1 := by
    rw [hw] at h1
    injection h1
  refine ⟨hweq ▸ hcw, h3 ▸ h1, h3 ▸ hnd (by simp)⟩

/-- Claim C3, witness: the single entry of `bAB`'s output satisfies all
three properties. -/
theorem C3_witness :
    vAB.containsWord ['a', 'b'] = true
    ∧ bAB.path2word [((2 : Int), (2 : Int)), ((2 : Int), (3 : Int))] = .ok ['a', 'b']
    ∧ ([((2 : Int), (2 : Int)), ((2 : Int), (3 : Int))] : List Pos).Nodup := by
  have h := C3_soundness bAB vAB
    [(['a', 'b'], ([((2 : Int), (2 : Int)), ((2 : Int), (3 : Int))], 2))] rfl
    (['a', 'b'], ([((2 : Int), (2 : Int)), ((2 : Int), (3 : Int))], 2))
    (List.mem_singleton.2 rfl)
  exact h

/-- Claim C5, counterexample.  The recursion guard of `_explore` tests
`keys(word_form)` — the branch's CURRENT word — not the extended word.  On
`bAB` (dictionary `{"ab"}`) the branch at `(0,0)` with current word `"a"`
recurses into neighbour `(1,0)` although the extended word `"az"` is a
prefix of no dictionary word, contradicting the claimed `if and only if
hasPrefix(w')` condition (the entered branch then yields nothing). -/
theorem C5_counterexample :
    bAB.entersNeighbour vAB ((0 : Int), (0 : Int)) [] ((1 : Int), (0 : Int)) = true
    ∧ bAB.path2word [((0 : Int), (0 : Int)), ((1 : Int), (0 : Int))] = .ok ['a', 'z']
    ∧ vAB.keysStarting ['a', 'z'] = false
    ∧ bAB.explore vAB 16 ((1 : Int), (0 : Int)) [((0 : Int), (0 : Int))] = .ok [] :=
  ⟨rfl, rfl, rfl, rfl⟩

/-- Claim C5, amended: the loop recurses into an unvisited neighbour `n`
exactly when the prefix test passes on the branch's CURRENT word `w` (and
the tile lookup succeeds) — the test on the extended word happens only one
level deeper.  Consequently (i) whatever a sub-branch entered through the
guard yields is part of the parent's yields, (ii) when the current word
fails the prefix test the branch yields nothing and recurses no further,
and (iii) the guard is literally `n unvisited-neighbour ∧ hasPrefix(w) ∧
tile-lookup-ok`. -/
theorem C5_guard_is_current_word : ∀ (b : Board) (voc : Vocabulary)
    (pos n : Pos) (path : List Pos) (fuel : Nat),
    (∀ rs, b.entersNeighbour voc pos path n = true →
      b.explore voc (fuel + 1) pos path = .ok rs →
      ∃ rs1, b.explore voc fuel n (path ++ [pos]) = .ok rs1 ∧ ∀ r ∈ rs1, r ∈ rs)
    ∧ (∀ w, b.path2word (path ++ [pos]) = .ok w → voc.keysStarting w = false →
        b.explore voc (fuel + 1) pos path = .ok [])
    ∧ (∀ w, b.path2word (path ++ [pos]) = .ok w →
        b.entersNeighbour voc pos path n
          = (decide (n ∈ neighboursAt pos) && ! decide (n ∈ path ++ [pos])
              && voc.keysStarting w && (b.tile n).isOk)) := by
  intro b voc pos n path fuel
  refine ⟨fun rs he h => explore_enters he h,
    fun w hw hks => explore_dead hw hks, fun w hw => ?_⟩
  rw [Board.entersNeighbour, hw]

/-- Claim C5, witness: applying the amended theorem on `bAB` at the dead
branch `"az"`: its exploration contributes nothing. -/
theorem C5_witness :
    bAB.explore vAB 17 ((1 : Int), (0 : Int)) [((0 : Int), (0 : Int))] = .ok [] :=
  (C5_guard_is_current_word bAB vAB ((1 : Int), (0 : Int)) ((0 : Int), (0 : Int))
    [((0 : Int), (0 : Int))] 16).2.1 ['a', 'z'] rfl rfl

/-- Claim C7, counterexample.  `Board.__init__` never checks the tile
count: a single-tile input (letter and bonus code both valid) constructs a
`grid_size` 4 board without any error, though the claim requires a
`ConfigurationError` for tile count ≠ N². -/
theorem C7_counterexample :
    (buildBoard (fun _ => 1) [('a', "")] 4).isOk = true
    ∧ ([('a', "")] : List (Char × String)).length ≠ 4 * 4 := ⟨rfl, by decide⟩

/-- Claim C7, amended: for every positive grid size, the construction
pipeline fails (with the assertion errors of `Tile.__init__`) if and only
if some character is not a recognised letter or some bonus code is not
recognised; the tile count is never validated.  Failure is immediate at
construction (the pipeline is a pure function, nothing retries).  The
`0 < g` hypothesis excludes `grid_size = 0`, where the source instead dies
with a `ZeroDivisionError` at `pos / self.GRID_SIZE` — a failure the total
`Nat` division of `assignTiles` does not model. -/
theorem C7_construction_check : ∀ (cp : Char → Nat) (input : List (Char × String))
    (g : Nat), 0 < g → ((buildBoard cp input g).isOk = true ↔
      ∀ e ∈ input, recognisedLetter e.1 = true ∧ CHAR_COLOURS.contains e.2 = true) := by
  intro cp input g _
  have hmk : ∀ inp : List (Char × String), (mkTiles cp inp).isOk = true ↔
      ∀ e ∈ inp, recognisedLetter e.1 = true ∧ CHAR_COLOURS.contains e.2 = true := by
    intro inp
    induction inp with
    | nil => simp [mkTiles, Except.isOk, Except.toBool]
    | cons e rest ih =>
        rw [mkTiles]
        have hmk1 : ∀ t, mkTile cp e.1 e.2 = .ok t →
            recognisedLetter e.1 = true ∧ CHAR_COLOURS.contains e.2 = true := by
          intro t ht
          rw [mkTile] at ht
          by_cases h1 : recognisedLetter e.1
          · by_cases h2 : CHAR_COLOURS.contains e.2
            · exact ⟨h1, h2⟩
            · rw [if_neg (by simpa using h1), if_pos (by simpa using h2)] at ht
              cases ht
          · rw [if_pos (by simpa using h1)] at ht
            cases ht
        cases hm : mkTile cp e.1 e.2 with
        | error err =>
            simp only [Except.isOk, Except.toBool]
            constructor
            · intro h; cases h
            · intro h
              exfalso
              rcases h e (List.mem_cons_self e rest) with ⟨h1, h2⟩
              rw [mkTile, if_neg (by simpa using h1), if_neg (by simpa using h2)] at hm
              cases hm
        | ok t =>
            cases hr : mkTiles cp rest with
            | error err =>
                simp only [Except.isOk, Except.toBool]
                constructor
                · intro h; cases h
                · intro h
                  have := (ih.2 (fun e' he' => h e' (List.mem_cons_of_mem e he')))
                  rw [hr] at this
                  cases this
            | ok ts =>
                simp only [Except.isOk, Except.toBool]
                constructor
                · intro _ e' he'
                  rcases List.mem_cons.1 he' with rfl | he'
                  · exact hmk1 t hm
                  · have := ih.1 (by rw [hr]; rfl)
                    exact this e' he'
                · intro _; trivial
  rw [buildBoard]
  cases hm : mkTiles cp input with
  | error err =>
      have h2 := hmk input
      rw [hm] at h2
      simpa [Except.isOk, Except.toBool] using h2
  | ok ts =>
      have h2 := hmk input
      rw [hm] at h2
      simpa [Except.isOk, Except.toBool] using h2

/-- Claim C7, witness: a two-tile input with valid letters and bonus codes
constructs a grid-size-4 board without error, by the amended theorem. -/
theorem C7_witness :
    (buildBoard (fun _ => 1) [('b', "R"), ('c', "G")] 4).isOk = true :=
  (C7_construction_check (fun _ => 1) [('b', "R"), ('c', "G")] 4 (by decide)).2
    (by decide)

/-- Claim C8, counterexample.  `Board.tile` asserts only the upper bounds
(`position[0] < GRID_SIZE`, `position[1] < GRID_SIZE`): the out-of-bounds
position `(-1, 0)` passes both asserts and fails as a missing dict key
(Python `KeyError`), not with the claimed `OutOfBounds` failure. -/
theorem C8_counterexample :
    bZ.tile ((-1 : Int), (0 : Int)) = .error .keyError
    ∧ ¬ inBounds 4 ((-1 : Int), (0 : Int))
    ∧ (Except.error RuzzleError.keyError : Except RuzzleError Tile)
        ≠ .error .assertionFailed :=
  ⟨rfl, by decide, fun h => by injection h with h; cases h⟩

/-- Claim C8, amended for the canonical full board: the lookup fails with
the bounds assertion exactly when a coordinate is ≥ N; for positions in
`[0,N)²` it returns the stored tile; negative coordinates below the bounds
slip past the asserts and fail as a missing key instead. -/
theorem C8_tile_bounds : ∀ tiles : List Tile, tiles.length = 16 → ∀ p : Pos,
    ((Board.ofTiles tiles 4).tile p = .error .assertionFailed ↔
      (4 : Int) ≤ p.1 ∨ (4 : Int) ≤ p.2)
    ∧ (inBounds 4 p → ∃ t, (Board.ofTiles tiles 4).tile p = .ok t
        ∧ (p, t) ∈ (Board.ofTiles tiles 4).grid)
    ∧ ((p.1 < 0 ∨ p.2 < 0) → p.1 < 4 → p.2 < 4 →
        (Board.ofTiles tiles 4).tile p = .error .keyError) := by
  intro tiles h16 p
  have hg : (((Board.ofTiles tiles 4).gridSize : Nat) : Int) = (4 : Int) := rfl
  refine ⟨?_, ?_, ?_⟩
  · constructor
    · intro h
      by_contra hc
      push_neg at hc
      have h1 : p.1 < (((Board.ofTiles tiles 4).gridSize : Nat) : Int) := by
        rw [hg]; exact hc.1
      have h2 : p.2 < (((Board.ofTiles tiles 4).gridSize : Nat) : Int) := by
        rw [hg]; exact hc.2
      rw [Board.tile, if_pos h1, if_pos h2] at h
      cases hf : (Board.ofTiles tiles 4).find p with
      | some t => rw [hf] at h; cases h
      | none => rw [hf] at h; injection h with h; cases h
    · intro h
      rw [Board.tile]
      by_cases h1 : p.1 < (((Board.ofTiles tiles 4).gridSize : Nat) : Int)
      · rw [if_pos h1]
        have h2 : ¬ p.2 < (((Board.ofTiles tiles 4).gridSize : Nat) : Int) := by
          rw [hg]
          rcases h with h | h
          · exfalso; rw [hg] at h1; omega
          · omega
        rw [if_neg h2]
      · rw [if_neg h1]
  · intro hp
    have hs := (find_isSome_ofTiles16 h16).2 hp
    rcases Option.isSome_iff_exists.1 hs with ⟨t, ht⟩
    exact ⟨t, tile_ok_iff.2 ⟨hp.2.1, hp.2.2.2, ht⟩, find_some_mem ht⟩
  · intro hneg h1 h2
    have hnone : (Board.ofTiles tiles 4).find p = none := by
      cases hf : (Board.ofTiles tiles 4).find p with
      | none => rfl
      | some t =>
          exfalso
          rcases keys_nonneg_ofTiles (find_some_mem_keys hf) with ⟨hn1, hn2⟩
          omega
    have hb1 : p.1 < (((Board.ofTiles tiles 4).gridSize : Nat) : Int) := by
      rw [hg]; exact h1
    have hb2 : p.2 < (((Board.ofTiles tiles 4).gridSize : Nat) : Int) := by
      rw [hg]; exact h2
    rw [Board.tile, if_pos hb1, if_pos hb2, hnone]

/-- Claim C8, witness: on the full all-`'z'` board, the in-bounds position
`(1,2)` returns its stored tile, and `(5,0)` trips the bounds assertion. -/
theorem C8_witness :
    bZ.tile ((5 : Int), (0 : Int)) = .error .assertionFailed :=
  (C8_tile_bounds (List.replicate 16 (tl 'z')) (by decide)
    ((5 : Int), (0 : Int))).1.2 (Or.inl (by decide))

/-- Claim C9: the depth-first search terminates on every board and
dictionary.  The embedded recursion, given fuel `grid.length + 1 = N² + 1`,
never exhausts it (`depthExceeded` is unreachable) — i.e. the recursion
depth is at most N² — and every returned path has length at most N²
because positions cannot repeat within a path. -/
theorem C9_termination : ∀ (tiles : List Tile) (g : Nat) (voc : Vocabulary),
    tiles.length = g * g →
    (Board.ofTiles tiles g).possible_words voc ≠ .error .depthExceeded
    ∧ ∀ rs, (Board.ofTiles tiles g).possible_words voc = .ok rs →
        ∀ e ∈ rs, e.2.1.length ≤ g * g := by
  intro tiles g voc h
  refine ⟨possible_words_ne_depth _ _, ?_⟩
  intro rs hrs e he
  rcases possible_words_mem hrs e he with ⟨c, -, paths, hx, p, hp, h1, -, h3⟩
  rcases explore_inv _ c [] paths hx p hp with ⟨⟨w, hw, -⟩, hnd, -⟩
  have hnd' : p.Nodup := hnd (by simp)
  have hlen : p.length ≤ ((Board.ofTiles tiles g).grid.map Prod.fst).length :=
    nodup_subset_length hnd' (path2word_ok_keys hw)
  rw [h3]
  calc p.length ≤ ((Board.ofTiles tiles g).grid.map Prod.fst).length := hlen
    _ = (assignTiles g 0 tiles).length := List.length_map _ _
    _ = tiles.length := assignTiles_length g 0 tiles
    _ = g * g := h

/-- Claim C9, witness: on the full all-`'z'` board the search never
exhausts its depth bound. -/
theorem C9_witness : bZ.possible_words vAB ≠ .error .depthExceeded :=
  (C9_termination (List.replicate 16 (tl 'z')) 4 vAB (by decide)).1

/-- Claim C10: along the path of every returned `(word, path)` pair, any
two consecutive positions are distinct and differ by at most 1 in each
coordinate (Chebyshev distance 1, i.e. 8-adjacency). -/
theorem C10_path_adjacency : ∀ (b : Board) (voc : Vocabulary) (rs : List Entry),
    b.possible_words voc = .ok rs → ∀ e ∈ rs,
      List.Chain' (fun p q => p ≠ q ∧ (q.1 - p.1).natAbs ≤ 1
        ∧ (q.2 - p.2).natAbs ≤ 1) e.2.1 := by
  intro b voc rs h e he
  rcases possible_words_mem h e he with ⟨c, -, paths, hx, p, hp, -, -, h3⟩
  rcases explore_inv _ c [] paths hx p hp with ⟨-, -, hch⟩
  have hch' := hch (by simp)
  rw [h3]
  refine List.Chain'.imp ?_ hch'
  intro a c' hc
  rcases neighboursAt_cheb hc with ⟨hne, hdx, hdy⟩
  exact ⟨fun hh => hne hh.symm, hdx, hdy⟩

/-- Claim C10, witness: the consecutive positions of the path returned on
`bAB` are 8-adjacent. -/
theorem C10_witness :
    List.Chain' (fun p q => p ≠ q ∧ (q.1 - p.1).natAbs ≤ 1
      ∧ (q.2 - p.2).natAbs ≤ 1)
      [((2 : Int), (2 : Int)), ((2 : Int), (3 : Int))] :=
  C10_path_adjacency bAB vAB
    [(['a', 'b'], ([((2 : Int), (2 : Int)), ((2 : Int), (3 : Int))], 2))] rfl
    (['a', 'b'], ([((2 : Int), (2 : Int)), ((2 : Int), (3 : Int))], 2))
    (List.mem_singleton.2 rfl)

end Ruzzle
